import Mathlib

/-!
Verification of the data-quality components of the `ymo_DE_python_sql`
repository: the rule-evaluation loop and NINO validator of
`HR_Data_Quality_Guide.ipynb`, the improvement tracker and reporter of the
continuous-improvement notebook, the column-quote normalisation of
`data_app/test.ipynb`, and the rule registry / data loader of the
"Data Quality Management Dashboard" (whose `data_loader.py` implementation is
documented but not present; those parts are modelled from the spec).

Tables, predicates and outcomes are kept abstract where the code treats them
abstractly (the notebook stores arbitrary callables in its check registry).
Python exceptions are modelled with `Except`; pandas dataframes are modelled
as lists of records.
-/

/-! ## Rule model (spec section 3)

`DQRule` is a registry entry of the dashboard: id, name, category, severity,
target table/column, validation predicate, active flag, message.  The
predicate is a function from a table to an outcome, matching the stored
callable / code snippet. -/

structure DQRule (τ α : Type) where
  id : String
  name : String
  category : String
  severity : String
  targetTable : String
  targetColumn : String
  active : Bool
  validate : τ → α
  message : String

/-- Modelled from the spec: the dashboard's rule toggle
("Toggle rules between active and inactive states", `data_loader.py` absent
from the sources).  Toggling flips the `active` flag and changes nothing
else. -/
def toggleRule {τ α : Type} (r : DQRule τ α) : DQRule τ α :=
  { r with active := !r.active }

/-- Modelled from the spec: toggling one rule of the registry, identified by
its id. -/
def toggleRuleInRegistry {τ α : Type} (rules : List (DQRule τ α)) (rid : String) :
    List (DQRule τ α) :=
  rules.map (fun r => if r.id == rid then toggleRule r else r)

/-- Modelled from the spec: rule creation.  The dashboard README requires
"Ensure unique rule IDs" when adding a rule, so a rule whose id is already
present is not added. -/
def createRule {τ α : Type} (rules : List (DQRule τ α)) (r : DQRule τ α) :
    List (DQRule τ α) :=
  if rules.any (fun x => x.id == r.id) then rules else rules ++ [r]

/-- Modelled from the spec: editing the rule with a given id.  An edit
rewrites the fields of that rule; the id identifies the rule and is kept. -/
def editRule {τ α : Type} (rules : List (DQRule τ α)) (rid : String)
    (f : DQRule τ α → DQRule τ α) : List (DQRule τ α) :=
  rules.map (fun r => if r.id == rid then { f r with id := r.id } else r)

/-- The registry operations of the spec: "rules are created/edited via a JSON
file and toggled by a flag". -/
inductive RegistryOp (τ α : Type) where
  | create (r : DQRule τ α)
  | edit (rid : String) (f : DQRule τ α → DQRule τ α)
  | toggle (rid : String)

def applyRegistryOp {τ α : Type} (rules : List (DQRule τ α)) :
    RegistryOp τ α → List (DQRule τ α)
  | RegistryOp.create r => createRule rules r
  | RegistryOp.edit rid f => editRule rules rid f
  | RegistryOp.toggle rid => toggleRuleInRegistry rules rid

def applyRegistryOps {τ α : Type} (rules : List (DQRule τ α))
    (ops : List (RegistryOp τ α)) : List (DQRule τ α) :=
  ops.foldl applyRegistryOp rules

/-- Modelled from the spec: one execution pass of the dashboard
("for each active rule, apply a stored boolean predicate ... to an in-memory
table and record the boolean/row outcome"; `data_loader.py` absent from the
sources).  Rules are visited sequentially; an active rule contributes exactly
one `(rule id, outcome)` record; an inactive rule is skipped. -/
def runActiveRules {τ α : Type} (rules : List (DQRule τ α)) (data : τ) :
    List (String × α) :=
  match rules with
  | [] => []
  | r :: rs =>
      if r.active then (r.id, r.validate data) :: runActiveRules rs data
      else runActiveRules rs data

/-! ## `HRDataQualityControl` (HR_Data_Quality_Guide.ipynb)

`add_quality_check` appends `{'name': check_name, 'function': check_function}`
to `self.quality_checks`; `run_quality_checks` iterates over the registered
checks and stores `results[check['name']] = check['function'](data)` in a
Python dict. -/

structure QualityCheck (τ α : Type) where
  name : String
  func : τ → α

/-- Assignment `d[k] = v` on a Python dict modelled as an insertion-ordered
association list: an existing key keeps its position and gets the new value,
a new key is appended. -/
def dictInsert {α : Type} (k : String) (v : α) :
    List (String × α) → List (String × α)
  | [] => [(k, v)]
  | (k0, v0) :: rest =>
      if k0 == k then (k0, v) :: rest else (k0, v0) :: dictInsert k v rest

/-- `HRDataQualityControl.run_quality_checks`: `results = {}`, then for each
registered check, `results[check['name']] = check['function'](data)`. -/
def run_quality_checks {τ α : Type} (checks : List (QualityCheck τ α))
    (data : τ) : List (String × α) :=
  checks.foldl (fun res c => dictInsert c.name (c.func data) res) []

/-- The same loop for check functions that can raise (`Except.error`): the
loop body `results[check['name']] = check['function'](data)` has no
`try`/`except`, so a raised error propagates and the loop stops. -/
def runChecksExcAux {τ ε α : Type} (data : τ) :
    List (QualityCheck τ (Except ε α)) → List (String × α) →
      Except ε (List (String × α))
  | [], acc => Except.ok acc
  | c :: cs, acc =>
      match c.func data with
      | Except.error e => Except.error e
      | Except.ok v => runChecksExcAux data cs (dictInsert c.name v acc)

/-- `run_quality_checks` over fallible check functions. -/
def run_quality_checks_exc {τ ε α : Type}
    (checks : List (QualityCheck τ (Except ε α))) (data : τ) :
    Except ε (List (String × α)) :=
  runChecksExcAux data checks []

/-! ## Data loading (spec sections 6 and 7)

The dashboard loader maps configured sources (CSV / Parquet / SQLite /
Postgres) to named logical tables; a missing source is replaced by an empty
table with the expected columns plus a logged warning.  `data_loader.py` is
absent from the sources, so the loader is modelled from the spec. -/

structure DataTable where
  columns : List String
  rows : List (List String)
deriving DecidableEq

def emptyTable (cols : List String) : DataTable :=
  { columns := cols, rows := [] }

structure SourceConfig where
  name : String
  expectedColumns : List String
deriving DecidableEq

def missingSourceWarning (n : String) : String :=
  "warning: data source " ++ n ++ " missing, substituting empty table"

/-- Modelled from the spec: loading one configured source.  "Missing data
source → substitute an empty table with the expected columns and log a
warning"; an available source is returned as is. -/
def loadSource (cfg : SourceConfig) (src : Option DataTable) :
    DataTable × List String :=
  match src with
  | none => (emptyTable cfg.expectedColumns, [missingSourceWarning cfg.name])
  | some tb => (tb, [])

/-- Modelled from the spec: loading every configured source.  The only fatal
path of the system is a configuration-file parse error, which would surface
as `Except.error`; a missing data source never does. -/
def loadAllSources (cfgs : List SourceConfig)
    (avail : String → Option DataTable) :
    Except String (List (String × DataTable) × List String) :=
  Except.ok
    (cfgs.map (fun c => (c.name, (loadSource c (avail c.name)).fst)),
     cfgs.foldr (fun c acc => (loadSource c (avail c.name)).snd ++ acc) [])

/-! ## `ImprovementTracking` (continuous-improvement notebook)

`self.improvements` is a dataframe with columns
`['date', 'description', 'status', 'impact']` and a default `RangeIndex`,
modelled as a list of records indexed by position.  Timestamps are abstract
`Nat` values (`datetime.now()` supplies them). -/

structure Improvement where
  date : Nat
  description : String
  status : String
  impact : String
deriving DecidableEq

/-- The argument of `add_improvement`: a dict that may or may not carry each
field. -/
structure ImprovementData where
  description : Option String
  status : Option String
  impact : Option String

structure ImprovementTracking where
  improvements : List Improvement
deriving DecidableEq

/-- `improvement = {**required_fields, **improvement_data}` with defaults
`description: '', status: 'pending', impact: 'low'`, then
`improvement['date'] = datetime.now()`. -/
def mkImprovement (d : ImprovementData) (now : Nat) : Improvement :=
  { date := now
    description := d.description.getD ""
    status := d.status.getD "pending"
    impact := d.impact.getD "low" }

/-- `ImprovementTracking.add_improvement`: `pd.concat([self.improvements,
pd.DataFrame([improvement])], ignore_index=True)` appends one row. -/
def add_improvement (tr : ImprovementTracking) (d : ImprovementData)
    (now : Nat) : ImprovementTracking :=
  { improvements := tr.improvements ++ [mkImprovement d now] }

/-- `self.improvements.loc[index, 'status'] = new_status` on the row with the
given label, guarded by `if index in self.improvements.index` (with the
default `RangeIndex`, the labels are the positions `0..len-1`); out of range
the list is returned unchanged. -/
def setStatusAt : List Improvement → Nat → String → List Improvement
  | [], _, _ => []
  | r :: rs, 0, ns => { r with status := ns } :: rs
  | r :: rs, i + 1, ns => r :: setStatusAt rs i ns

/-- `ImprovementTracking.update_status`. -/
def update_status (tr : ImprovementTracking) (index : Nat)
    (new_status : String) : ImprovementTracking :=
  { improvements := setStatusAt tr.improvements index new_status }

/-! ## `ImprovementReporting` (continuous-improvement notebook) -/

/-- `value_counts()` on a column: each distinct value with its number of
occurrences (first-occurrence order; pandas orders by count, which no claim
depends on). -/
def valueCounts (l : List String) : List (String × Nat) :=
  l.dedup.map (fun s => (s, l.count s))

/-- Abstraction of `strftime('%Y-%m-%d %H:%M:%S')` on one timestamp. -/
def formatTimestamp (n : Nat) : String :=
  toString n

/-- `improvements_df['date'].dt.strftime(...)`.  The `date` column of a fresh
tracker is created by `pd.DataFrame(columns=[...])` with dtype `object`; only
a concatenated row gives it a datetime dtype.  pandas' `.dt` accessor raises
`AttributeError` on a non-datetimelike column, which in every reachable
tracker state is exactly the empty one. -/
def dtStrftime (rows : List Improvement) : Except String (List String) :=
  if rows.isEmpty then
    Except.error "AttributeError: Can only use .dt accessor with datetimelike values"
  else
    Except.ok (rows.map (fun r => formatTimestamp r.date))

structure ProgressReport where
  overallProgress : ℚ
  totalImprovements : Nat
  completedCount : Nat
  pendingCount : Nat
  formattedDates : List String
  impactCounts : List (String × Nat)
deriving DecidableEq

/-- `ImprovementReporting.generate_progress_report`: computes `total`,
guards `total == 0` before dividing, counts completed and pending rows,
then formats the `date` column with `.dt.strftime` (the step that can raise)
and assembles the report. -/
def generate_progress_report (tr : ImprovementTracking) :
    Except String ProgressReport :=
  let total := tr.improvements.length
  let completed :=
    (tr.improvements.filter (fun r => r.status.toLower == "completed")).length
  let overallProgress : ℚ :=
    if total = 0 then 0 else (completed : ℚ) / (total : ℚ) * 100
  let pending :=
    (tr.improvements.filter (fun r => r.status.toLower == "pending")).length
  match dtStrftime tr.improvements with
  | Except.error e => Except.error e
  | Except.ok dates =>
      Except.ok
        { overallProgress := overallProgress
          totalImprovements := total
          completedCount := completed
          pendingCount := pending
          formattedDates := dates
          impactCounts := valueCounts (tr.improvements.map (fun r => r.impact)) }

/-! ## `validate_nino` (HR_Data_Quality_Guide.ipynb)

`re.match(r'^[A-CEGHJ-PR-TW-Z][A-CEGHJ-NPR-TW-Z][0-9]{6}[A-D]$', nino)`.
In Python, `$` (without `re.MULTILINE`) matches at the end of the string or
just before a single trailing newline, so the matcher accepts the nine-char
core optionally followed by one `'\n'`. -/

def ninoFirstLetterOk (c : Char) : Bool :=
  (c ≥ 'A' && c ≤ 'C') || c == 'E' || c == 'G' || c == 'H' ||
  (c ≥ 'J' && c ≤ 'P') || (c ≥ 'R' && c ≤ 'T') || (c ≥ 'W' && c ≤ 'Z')

def ninoSecondLetterOk (c : Char) : Bool :=
  (c ≥ 'A' && c ≤ 'C') || c == 'E' || c == 'G' || c == 'H' ||
  (c ≥ 'J' && c ≤ 'N') || c == 'P' || (c ≥ 'R' && c ≤ 'T') ||
  (c ≥ 'W' && c ≤ 'Z')

def ninoFinalLetterOk (c : Char) : Bool :=
  c ≥ 'A' && c ≤ 'D'

/-- The anchored core of the pattern: two letters from the restricted
alphabets, six digits, one final letter in A-D. -/
def ninoCore : List Char → Bool
  | [c1, c2, d1, d2, d3, d4, d5, d6, c9] =>
      ninoFirstLetterOk c1 && ninoSecondLetterOk c2 &&
      d1.isDigit && d2.isDigit && d3.isDigit &&
      d4.isDigit && d5.isDigit && d6.isDigit &&
      ninoFinalLetterOk c9
  | _ => false

def newlineChar : Char := Char.ofNat 10

/-- `validate_nino(nino) = bool(re.match(pattern, nino))` with Python's
dollar-anchor semantics. -/
def validate_nino (s : String) : Bool :=
  ninoCore s.data ||
  (s.data.getLast? == some newlineChar && ninoCore s.data.dropLast)

/-- The shape stated by the spec sentence: the string itself consists of the
two restricted letters, six digits and a final A-D letter (no trailing
newline mentioned). -/
def ninoShapeSpec (s : String) : Bool :=
  ninoCore s.data

/-! ## `fix_column_quotes` (data_app/test.ipynb)

For each rule of `rule_configurations.json`, the code performs three
`str.replace` rewrites on the rule's `python_code`, replacing
`df['col']`, `df["col"]` and `df[col]` by `df['''col''']` (where `col` is the
rule's `column_name`).  Python's `str.replace` substitutes every
non-overlapping occurrence scanning left to right. -/

def singleQuote : Char := Char.ofNat 39

def doubleQuote : Char := Char.ofNat 34

/-- `startsWith p s`: `p` is a prefix of `s` (used for the scan of
`str.replace`). -/
def startsWith : List Char → List Char → Bool
  | [], _ => true
  | _ :: _, [] => false
  | a :: as, b :: bs => a == b && startsWith as bs

/-- `s.replace(p, t)` on character lists: scan left to right, replace each
non-overlapping occurrence of `p` by `t` and continue after it. -/
def replaceList (p t : List Char) (s : List Char) : List Char :=
  match s with
  | [] => []
  | c :: cs =>
      if h : p ≠ [] ∧ startsWith p (c :: cs) = true then
        t ++ replaceList p t ((c :: cs).drop p.length)
      else
        c :: replaceList p t cs
termination_by s.length
decreasing_by
  · simp only [List.length_drop, List.length_cons]
    have hp : 0 < p.length := List.length_pos.mpr h.1
    omega
  · simp only [List.length_cons]
    omega

/-- The search text `df['col']`. -/
def pat1 (col : List Char) : List Char :=
  'd' :: 'f' :: '[' :: singleQuote :: (col ++ [singleQuote, ']'])

/-- The search text `df["col"]`. -/
def pat2 (col : List Char) : List Char :=
  'd' :: 'f' :: '[' :: doubleQuote :: (col ++ [doubleQuote, ']'])

/-- The search text `df[col]`. -/
def pat3 (col : List Char) : List Char :=
  'd' :: 'f' :: '[' :: (col ++ [']'])

/-- The replacement text `df['''col''']`. -/
def tripleQuoted (col : List Char) : List Char :=
  'd' :: 'f' :: '[' :: singleQuote :: singleQuote :: singleQuote ::
    (col ++ [singleQuote, singleQuote, singleQuote, ']'])

/-- The three replacements applied to one rule's `python_code`, in source
order: single-quoted, double-quoted, then bare column references. -/
def fixRuleCode (col code : List Char) : List Char :=
  replaceList (pat3 col) (tripleQuoted col)
    (replaceList (pat2 col) (tripleQuoted col)
      (replaceList (pat1 col) (tripleQuoted col) code))

structure RuleConfig where
  column_name : List Char
  python_code : List Char
deriving DecidableEq

/-- `fix_column_quotes`: rewrite every rule's `python_code` in the
configuration. -/
def fix_column_quotes (cfg : List RuleConfig) : List RuleConfig :=
  cfg.map (fun r => { r with python_code := fixRuleCode r.column_name r.python_code })

/-- `p` is a prefix of `s`. -/
def PreOf (p s : List Char) : Prop :=
  ∃ v, s = p ++ v

/-- `p` is a contiguous final segment of `s`. -/
def SufOf (p s : List Char) : Prop :=
  ∃ u, s = u ++ p

/-- `p` occurs contiguously somewhere in `s`. -/
def OccursIn (p s : List Char) : Prop :=
  ∃ u v, s = u ++ p ++ v

/-! ## Helper lemmas -/

lemma toggleRule_id {τ α : Type} (r : DQRule τ α) : (toggleRule r).id = r.id :=
  rfl

lemma toggleRule_involutive {τ α : Type} (r : DQRule τ α) :
    toggleRule (toggleRule r) = r := by
  cases r
  simp [toggleRule]

lemma setStatusAt_length (l : List Improvement) (i : Nat) (ns : String) :
    (setStatusAt l i ns).length = l.length := by
  induction l generalizing i with
  | nil => rfl
  | cons r rs ih =>
    cases i with
    | zero => simp [setStatusAt]
    | succ j => simp [setStatusAt, ih]

lemma setStatusAt_getElem_ne (l : List Improvement) (i : Nat) (ns : String)
    (j : Nat) (h : j ≠ i) : (setStatusAt l i ns)[j]? = l[j]? := by
  induction l generalizing i j with
  | nil => rfl
  | cons r rs ih =>
    cases i with
    | zero =>
      cases j with
      | zero => exact absurd rfl h
      | succ k => simp [setStatusAt]
    | succ i2 =>
      cases j with
      | zero => simp [setStatusAt]
      | succ k =>
        simp only [setStatusAt, List.getElem?_cons_succ]
        exact ih i2 k (fun hk => h (by rw [hk]))

lemma setStatusAt_getElem_eq (l : List Improvement) (i : Nat) (ns : String)
    (r : Improvement) (h : l[i]? = some r) :
    (setStatusAt l i ns)[i]? = some { r with status := ns } := by
  induction l generalizing i with
  | nil => simp at h
  | cons x xs ih =>
    cases i with
    | zero =>
      simp only [List.getElem?_cons_zero, Option.some.injEq] at h
      subst h
      simp [setStatusAt]
    | succ i2 =>
      simp only [List.getElem?_cons_succ] at h
      simp only [setStatusAt, List.getElem?_cons_succ]
      exact ih i2 h

lemma setStatusAt_oob (l : List Improvement) (i : Nat) (ns : String)
    (h : l.length ≤ i) : setStatusAt l i ns = l := by
  induction l generalizing i with
  | nil => rfl
  | cons r rs ih =>
    cases i with
    | zero => simp at h
    | succ j =>
      simp only [List.length_cons, Nat.succ_le_succ_iff] at h
      simp [setStatusAt, ih j h]

lemma setStatusAt_other_fields (l : List Improvement) (i : Nat) (ns : String)
    (j : Nat) :
    ((setStatusAt l i ns)[j]?).map (fun r => (r.date, r.description, r.impact)) =
      (l[j]?).map (fun r => (r.date, r.description, r.impact)) := by
  induction l generalizing i j with
  | nil => rfl
  | cons r rs ih =>
    cases i with
    | zero =>
      cases j with
      | zero => simp [setStatusAt]
      | succ k => simp [setStatusAt]
    | succ i2 =>
      cases j with
      | zero => simp [setStatusAt]
      | succ k =>
        simp only [setStatusAt, List.getElem?_cons_succ]
        exact ih i2 k

/-! ## Claim theorems: tracker and reporting -/

/-- C2: toggling a rule's active status twice returns the rule, and the
registry, to exactly the original state (toggle is an involution). -/
theorem toggle_twice_is_identity :
    (∀ (τ α : Type) (r : DQRule τ α), toggleRule (toggleRule r) = r) ∧
    (∀ (τ α : Type) (rules : List (DQRule τ α)) (rid : String),
      toggleRuleInRegistry (toggleRuleInRegistry rules rid) rid = rules) := by
  refine ⟨fun τ α r => toggleRule_involutive r, fun τ α rules rid => ?_⟩
  induction rules with
  | nil => rfl
  | cons r rs ih =>
    unfold toggleRuleInRegistry at ih ⊢
    simp only [List.map_cons]
    rw [ih]
    by_cases h : r.id == rid
    · simp [h, toggleRule_id, toggleRule_involutive]
    · simp [h]

/-- C9: `update_status index new_status` changes at most the `status` field
of the row at `index`: the length is unchanged, every other row is unchanged,
the row at `index` keeps its other fields, and an absent index leaves the
whole state unchanged. -/
theorem update_status_frame :
    ∀ (tr : ImprovementTracking) (i : Nat) (ns : String),
      ((update_status tr i ns).improvements.length = tr.improvements.length) ∧
      (∀ j, j ≠ i →
        (update_status tr i ns).improvements[j]? = tr.improvements[j]?) ∧
      (∀ r, tr.improvements[i]? = some r →
        (update_status tr i ns).improvements[i]? = some { r with status := ns }) ∧
      (tr.improvements[i]? = none → update_status tr i ns = tr) := by
  intro tr i ns
  refine ⟨setStatusAt_length _ _ _,
          fun j hj => setStatusAt_getElem_ne _ _ _ _ hj,
          fun r hr => setStatusAt_getElem_eq _ _ _ _ hr,
          fun hnone => ?_⟩
  have hlen : tr.improvements.length ≤ i := by
    exact List.getElem?_eq_none_iff.mp hnone
  cases tr with
  | mk l => simp [update_status, setStatusAt_oob l i ns hlen]

/-- C9 witness: on a one-row tracker, updating row 0 rewrites only the
status field of that row. -/
theorem update_status_frame_witness :
    (update_status (ImprovementTracking.mk [⟨7, "desc", "pending", "low"⟩]) 0
        "completed").improvements[0]? =
      some ⟨7, "desc", "completed", "low"⟩ :=
  (update_status_frame (ImprovementTracking.mk [⟨7, "desc", "pending", "low"⟩])
      0 "completed").2.2.1 ⟨7, "desc", "pending", "low"⟩ rfl

/-- C7 counterexample: `update_status` rewrites a recorded row in place, so
the previous record sequence is not a prefix of the new one. -/
theorem run_history_not_append_only_cex :
    ¬ ((ImprovementTracking.mk [⟨5, "x", "pending", "high"⟩]).improvements <+:
        (update_status (ImprovementTracking.mk [⟨5, "x", "pending", "high"⟩])
          0 "completed").improvements) := by
  intro h
  have heq : (update_status (ImprovementTracking.mk
      [⟨5, "x", "pending", "high"⟩]) 0 "completed").improvements =
      [⟨5, "x", "completed", "high"⟩] := rfl
  rw [heq] at h
  rcases h with ⟨t, ht⟩
  cases t with
  | nil => simp at ht
  | cons a _ => simp at ht

/-- C7 amended: the store never shrinks.  `add_improvement` strictly appends
(the old sequence is a prefix of the new one); `update_status` keeps the
number and order of records and every field except possibly the status of the
targeted row; no operation deletes a record. -/
theorem run_history_operations_never_delete :
    ∀ (tr : ImprovementTracking) (d : ImprovementData) (now : Nat) (i : Nat)
      (ns : String),
      ((add_improvement tr d now).improvements =
        tr.improvements ++ [mkImprovement d now]) ∧
      (tr.improvements <+: (add_improvement tr d now).improvements) ∧
      ((update_status tr i ns).improvements.length = tr.improvements.length) ∧
      (∀ j : Nat, ((update_status tr i ns).improvements[j]?).map
          (fun r : Improvement => (r.date, r.description, r.impact)) =
        (tr.improvements[j]?).map
          (fun r : Improvement => (r.date, r.description, r.impact))) ∧
      (tr.improvements.length ≤ (add_improvement tr d now).improvements.length) := by
  intro tr d now i ns
  refine ⟨rfl, ⟨[mkImprovement d now], rfl⟩, setStatusAt_length _ _ _,
          fun j => setStatusAt_other_fields tr.improvements i ns j, ?_⟩
  simp [add_improvement]

/-- C8: on the empty tracker, `generate_progress_report` does not return a
report: the `.dt` strftime step raises `AttributeError` (pandas refuses the
`.dt` accessor on the object-dtype `date` column of the fresh empty frame),
even though the `total == 0` guard had already computed an overall progress
of 0 for exactly this case. -/
theorem generate_progress_report_empty_tracker_raises :
    generate_progress_report (ImprovementTracking.mk []) =
      Except.error
        "AttributeError: Can only use .dt accessor with datetimelike values" :=
  rfl

/-! ## Claim theorems: NINO validation -/

/-- C4 counterexample: a valid NINO followed by a single trailing newline is
accepted by `validate_nino` (Python's `$` also matches just before a final
newline) although it does not have the claimed shape. -/
theorem validate_nino_trailing_newline_cex :
    validate_nino (String.push "AB123456C" newlineChar) = true ∧
    ninoShapeSpec (String.push "AB123456C" newlineChar) = false :=
  ⟨rfl, rfl⟩

/-- C4 amended: `validate_nino s` is true iff `s` is two letters from the
restricted alphabets (no D, F, I, Q, U, V first, additionally no O second),
six digits and a final letter A-D -- or such a string followed by exactly one
trailing newline, which Python's `$` anchor also accepts. -/
theorem validate_nino_characterisation :
    (∀ s : String, validate_nino s = true ↔
      (ninoShapeSpec s = true ∨
       ∃ s0 : String, s = s0.push newlineChar ∧ ninoShapeSpec s0 = true)) ∧
    validate_nino "AB123456C" = true ∧
    validate_nino "DB123456C" = false ∧
    validate_nino "AO123456C" = false ∧
    validate_nino "AB12345C" = false ∧
    validate_nino "AB1234567" = false := by
  refine ⟨fun s => ?_, rfl, rfl, rfl, rfl, rfl⟩
  unfold validate_nino ninoShapeSpec
  constructor
  · intro h
    simp only [Bool.or_eq_true, Bool.and_eq_true, beq_iff_eq] at h
    rcases h with h1 | ⟨hlast, hcore⟩
    · exact Or.inl h1
    · right
      have hne : s.data ≠ [] := by
        intro hnil
        rw [hnil] at hlast
        simp at hlast
      refine ⟨String.mk s.data.dropLast, ?_, hcore⟩
      cases s with
      | mk l =>
        have hne2 : l ≠ [] := hne
        have hg : l.getLast hne2 = newlineChar := by
          have := List.getLast?_eq_getLast l hne2
          rw [this] at hlast
          exact Option.some.injEq _ _ ▸ hlast.symm ▸ rfl
        have hl : l.dropLast ++ [newlineChar] = l := by
          rw [← hg]
          exact List.dropLast_append_getLast hne2
        show String.mk l = String.mk (l.dropLast ++ [newlineChar])
        rw [hl]
  · intro h
    simp only [Bool.or_eq_true, Bool.and_eq_true, beq_iff_eq]
    rcases h with h1 | ⟨s0, hs, h0⟩
    · exact Or.inl h1
    · right
      subst hs
      cases s0 with
      | mk l =>
        refine ⟨?_, ?_⟩
        · show (l ++ [newlineChar]).getLast? = some newlineChar
          exact List.getLast?_concat l
        · show ninoCore (l ++ [newlineChar]).dropLast = true
          rw [List.dropLast_concat]
          exact h0

/-! ## Claim theorems: data loading -/

lemma mem_foldr_append {β : Type} (f : β → List String) (l : List β) (x : β)
    (w : String) (hx : x ∈ l) (hw : w ∈ f x) :
    w ∈ l.foldr (fun c acc => f c ++ acc) [] := by
  induction l with
  | nil => cases hx
  | cons a as ih =>
    simp only [List.foldr_cons, List.mem_append]
    rcases List.mem_cons.mp hx with rfl | h2
    · exact Or.inl hw
    · exact Or.inr (ih h2)

/-- C3: loading never fails on a missing source: the loader returns
`Except.ok`, and every configured source that is absent is replaced by an
empty table carrying exactly the expected columns, with a warning logged. -/
theorem missing_source_empty_table_fallback :
    ∀ (cfgs : List SourceConfig) (avail : String → Option DataTable),
      ∃ tables warnings,
        loadAllSources cfgs avail = Except.ok (tables, warnings) ∧
        ∀ cfg ∈ cfgs, avail cfg.name = none →
          (cfg.name, emptyTable cfg.expectedColumns) ∈ tables ∧
          (emptyTable cfg.expectedColumns).columns = cfg.expectedColumns ∧
          (emptyTable cfg.expectedColumns).rows = [] ∧
          missingSourceWarning cfg.name ∈ warnings := by
  intro cfgs avail
  refine ⟨_, _, rfl, fun cfg hc hmiss => ⟨?_, rfl, rfl, ?_⟩⟩
  · apply List.mem_map.mpr
    refine ⟨cfg, hc, ?_⟩
    rw [hmiss]
    rfl
  · apply mem_foldr_append (fun c => (loadSource c (avail c.name)).snd) cfgs cfg
      _ hc
    rw [hmiss]
    simp [loadSource]

/-- C3 witness: one configured source, nothing available. -/
theorem missing_source_empty_table_fallback_witness :
    ∃ tables warnings,
      loadAllSources [⟨"per", ["id", "name"]⟩] (fun _ => none) =
        Except.ok (tables, warnings) ∧
      ("per", emptyTable ["id", "name"]) ∈ tables ∧
      missingSourceWarning "per" ∈ warnings := by
  obtain ⟨tb, w, h1, h2⟩ :=
    missing_source_empty_table_fallback [⟨"per", ["id", "name"]⟩] (fun _ => none)
  obtain ⟨h3, _, _, h4⟩ := h2 ⟨"per", ["id", "name"]⟩ (by simp) rfl
  exact ⟨tb, w, h1, h3, h4⟩

/-! ## Claim theorems: rule execution -/

lemma runChecksExcAux_error {τ ε α : Type} (data : τ)
    (pre post : List (QualityCheck τ (Except ε α)))
    (c : QualityCheck τ (Except ε α)) (e : ε)
    (hc : c.func data = Except.error e)
    (hpre : ∀ x ∈ pre, ∃ v, x.func data = Except.ok v) :
    ∀ acc, runChecksExcAux data (pre ++ c :: post) acc = Except.error e := by
  induction pre with
  | nil =>
    intro acc
    simp only [List.nil_append, runChecksExcAux]
    rw [hc]
  | cons x xs ih =>
    intro acc
    obtain ⟨v, hv⟩ := hpre x (List.mem_cons_self x xs)
    simp only [List.cons_append, runChecksExcAux]
    rw [hv]
    exact ih (fun y hy => hpre y (List.mem_cons_of_mem x hy)) _

/-- C5 counterexample: an error raised by the first check's predicate aborts
the whole run: `run_quality_checks` propagates the error and never records
the outcome of the remaining check. -/
theorem rule_error_aborts_run_cex :
    (run_quality_checks_exc
        [⟨"bad", fun _ => Except.error "boom"⟩,
         ⟨"good", fun _ => Except.ok true⟩] (0 : Nat) =
      Except.error "boom") ∧
    ∀ res, run_quality_checks_exc
        [⟨"bad", fun _ => Except.error "boom"⟩,
         ⟨"good", fun _ => Except.ok true⟩] (0 : Nat) ≠
      Except.ok res := by
  refine ⟨rfl, fun res h => ?_⟩
  rw [show run_quality_checks_exc
        [⟨"bad", fun _ => Except.error "boom"⟩,
         ⟨"good", fun _ => Except.ok true⟩] (0 : Nat) =
      (Except.error "boom" : Except String (List (String × Bool))) from rfl] at h
  exact Except.noConfusion h

/-- C5 amended: `run_quality_checks` has no per-rule error handling: when the
first failing check raises, the exception propagates, the run stops there,
and no result is recorded for it or any later rule. -/
theorem rule_error_aborts_run :
    ∀ (τ ε α : Type) (pre post : List (QualityCheck τ (Except ε α)))
      (c : QualityCheck τ (Except ε α)) (data : τ) (e : ε),
      c.func data = Except.error e →
      (∀ x ∈ pre, ∃ v, x.func data = Except.ok v) →
      run_quality_checks_exc (pre ++ c :: post) data = Except.error e := by
  intro τ ε α pre post c data e hc hpre
  exact runChecksExcAux_error data pre post c e hc hpre []

/-- C5 witness: a passing check, then a failing one, then another check. -/
theorem rule_error_aborts_run_witness :
    run_quality_checks_exc
      [⟨"first", fun _ => Except.ok false⟩,
       ⟨"bad", fun _ => Except.error "boom"⟩,
       ⟨"good", fun _ => Except.ok true⟩] (0 : Nat) =
      Except.error "boom" := by
  have h := rule_error_aborts_run Nat String Bool
    [⟨"first", fun _ => Except.ok false⟩]
    [⟨"good", fun _ => Except.ok true⟩]
    ⟨"bad", fun _ => Except.error "boom"⟩ 0 "boom" rfl
    (by
      intro x hx
      rcases List.mem_singleton.mp hx with rfl
      exact ⟨false, rfl⟩)
  exact h

lemma runActiveRules_map_fst {τ α : Type} (rules : List (DQRule τ α))
    (data : τ) :
    (runActiveRules rules data).map Prod.fst =
      (rules.filter (fun r => r.active)).map DQRule.id := by
  induction rules with
  | nil => rfl
  | cons r rs ih =>
    by_cases h : r.active
    · simp [runActiveRules, List.filter_cons, h, ih]
    · simp [runActiveRules, List.filter_cons, h, ih]

lemma runActiveRules_mem {τ α : Type} (rules : List (DQRule τ α)) (data : τ)
    (r : DQRule τ α) (hr : r ∈ rules) (ha : r.active = true) :
    (r.id, r.validate data) ∈ runActiveRules rules data := by
  induction rules with
  | nil => cases hr
  | cons x xs ih =>
    rcases List.mem_cons.mp hr with rfl | h2
    · simp [runActiveRules, ha]
    · by_cases hx : x.active
      · simp only [runActiveRules, hx, if_true, List.mem_cons]
        exact Or.inr (ih h2)
      · simp only [runActiveRules, hx, if_false]
        exact ih h2

lemma filter_fst_length_eq_count {α : Type} (l : List (String × α))
    (rid : String) :
    (l.filter (fun o => o.fst == rid)).length =
      List.count rid (l.map Prod.fst) := by
  induction l with
  | nil => rfl
  | cons a as ih =>
    by_cases h : a.fst == rid
    · simp [List.filter_cons, h, List.count_cons, ih]
    · simp [List.filter_cons, h, List.count_cons, ih]

lemma count_id_filter_active_of_active {τ α : Type}
    (rules : List (DQRule τ α)) (r : DQRule τ α) (hr : r ∈ rules)
    (hnd : (rules.map DQRule.id).Nodup) (ha : r.active = true) :
    List.count r.id ((rules.filter (fun x => x.active)).map DQRule.id) = 1 := by
  induction rules with
  | nil => cases hr
  | cons x xs ih =>
    rw [List.map_cons] at hnd
    obtain ⟨hx_notin, hnd2⟩ := List.nodup_cons.mp hnd
    rcases List.mem_cons.mp hr with rfl | h2
    · have hzero :
          List.count r.id ((xs.filter (fun x => x.active)).map DQRule.id) = 0 := by
        apply List.count_eq_zero_of_not_mem
        intro hmem
        apply hx_notin
        have hsub : List.Sublist
            ((xs.filter (fun x => x.active)).map DQRule.id)
            (xs.map DQRule.id) := List.Sublist.map _ (List.filter_sublist xs)
        exact hsub.mem hmem
      simp [List.filter_cons, ha, List.count_cons, hzero]
    · have hne : x.id ≠ r.id := by
        intro hid
        apply hx_notin
        rw [hid]
        exact List.mem_map_of_mem DQRule.id h2
      by_cases hx : x.active
      · simp only [List.filter_cons, hx, if_true, List.map_cons,
          List.count_cons, ih h2 hnd2]
        simp [hne]
      · simp only [List.filter_cons, hx, if_false]
        exact ih h2 hnd2

lemma count_id_filter_active_of_inactive {τ α : Type}
    (rules : List (DQRule τ α)) (r : DQRule τ α) (hr : r ∈ rules)
    (hnd : (rules.map DQRule.id).Nodup) (ha : r.active = false) :
    List.count r.id ((rules.filter (fun x => x.active)).map DQRule.id) = 0 := by
  induction rules with
  | nil => cases hr
  | cons x xs ih =>
    rw [List.map_cons] at hnd
    obtain ⟨hx_notin, hnd2⟩ := List.nodup_cons.mp hnd
    rcases List.mem_cons.mp hr with rfl | h2
    · have : ¬ r.active = true := by rw [ha]; exact Bool.false_ne_true
      simp only [List.filter_cons, this, if_false]
      apply List.count_eq_zero_of_not_mem
      intro hmem
      apply hx_notin
      have hsub : List.Sublist
          ((xs.filter (fun x => x.active)).map DQRule.id)
          (xs.map DQRule.id) := List.Sublist.map _ (List.filter_sublist xs)
      exact hsub.mem hmem
    · have hne : x.id ≠ r.id := by
        intro hid
        apply hx_notin
        rw [hid]
        exact List.mem_map_of_mem DQRule.id h2
      by_cases hx : x.active
      · simp only [List.filter_cons, hx, if_true, List.map_cons,
          List.count_cons, ih h2 hnd2]
        simp [hne]
      · simp only [List.filter_cons, hx, if_false]
        exact ih h2 hnd2

/-- C1: one execution pass over a registry with distinct rule ids evaluates
each active rule exactly once, records the value of its stored predicate on
the loaded table as its single outcome, and records nothing for inactive
rules. -/
theorem run_pass_evaluates_each_active_rule_exactly_once :
    ∀ (τ α : Type) (rules : List (DQRule τ α)) (data : τ),
      (rules.map DQRule.id).Nodup →
      ((runActiveRules rules data).map Prod.fst =
        (rules.filter (fun r => r.active)).map DQRule.id) ∧
      (∀ r ∈ rules, r.active = true →
        ((runActiveRules rules data).filter
            (fun o => o.fst == r.id)).length = 1 ∧
        (r.id, r.validate data) ∈ runActiveRules rules data) ∧
      (∀ r ∈ rules, r.active = false →
        ((runActiveRules rules data).filter
            (fun o => o.fst == r.id)).length = 0) := by
  intro τ α rules data hnd
  refine ⟨runActiveRules_map_fst rules data, fun r hr ha => ⟨?_, ?_⟩,
          fun r hr ha => ?_⟩
  · rw [filter_fst_length_eq_count, runActiveRules_map_fst]
    exact count_id_filter_active_of_active rules r hr hnd ha
  · exact runActiveRules_mem rules data r hr ha
  · rw [filter_fst_length_eq_count, runActiveRules_map_fst]
    exact count_id_filter_active_of_inactive rules r hr hnd ha

/-- C1 witness: a two-rule registry with one active and one inactive rule. -/
theorem run_pass_evaluates_each_active_rule_exactly_once_witness :
    ((runActiveRules
        [⟨"r1", "n1", "cat", "sev", "tbl", "col", true, fun n => n == 0, "m1"⟩,
         ⟨"r2", "n2", "cat", "sev", "tbl", "col", false, fun n => n == 1, "m2"⟩]
        (0 : Nat)).filter (fun o => o.fst == "r1")).length = 1 ∧
    ((runActiveRules
        [⟨"r1", "n1", "cat", "sev", "tbl", "col", true, fun n => n == 0, "m1"⟩,
         ⟨"r2", "n2", "cat", "sev", "tbl", "col", false, fun n => n == 1, "m2"⟩]
        (0 : Nat)).filter (fun o => o.fst == "r2")).length = 0 := by
  have h := run_pass_evaluates_each_active_rule_exactly_once Nat Bool
    [⟨"r1", "n1", "cat", "sev", "tbl", "col", true, fun n => n == 0, "m1"⟩,
     ⟨"r2", "n2", "cat", "sev", "tbl", "col", false, fun n => n == 1, "m2"⟩]
    0 (by decide)
  refine ⟨(h.2.1
      ⟨"r1", "n1", "cat", "sev", "tbl", "col", true, fun n => n == 0, "m1"⟩
      (by simp) rfl).1,
    h.2.2
      ⟨"r2", "n2", "cat", "sev", "tbl", "col", false, fun n => n == 1, "m2"⟩
      (by simp) rfl⟩

/-! ## Claim theorems: registry invariant -/

lemma editRule_map_id {τ α : Type} (rules : List (DQRule τ α)) (rid : String)
    (f : DQRule τ α → DQRule τ α) :
    (editRule rules rid f).map DQRule.id = rules.map DQRule.id := by
  induction rules with
  | nil => rfl
  | cons r rs ih =>
    simp only [editRule, List.map_cons] at ih ⊢
    rw [ih]
    by_cases h : r.id == rid
    · simp [h]
    · simp [h]

lemma toggleRuleInRegistry_map_id {τ α : Type} (rules : List (DQRule τ α))
    (rid : String) :
    (toggleRuleInRegistry rules rid).map DQRule.id = rules.map DQRule.id := by
  induction rules with
  | nil => rfl
  | cons r rs ih =>
    simp only [toggleRuleInRegistry, List.map_cons] at ih ⊢
    rw [ih]
    by_cases h : r.id == rid
    · simp [h, toggleRule_id]
    · simp [h]

lemma createRule_nodup_id {τ α : Type} (rules : List (DQRule τ α))
    (r : DQRule τ α) (h : (rules.map DQRule.id).Nodup) :
    ((createRule rules r).map DQRule.id).Nodup := by
  unfold createRule
  by_cases hc : rules.any (fun x => x.id == r.id)
  · simp only [hc, if_true]
    exact h
  · simp only [Bool.not_eq_true] at hc
    simp only [hc, Bool.false_eq_true, if_false, List.map_append,
      List.map_cons, List.map_nil]
    rw [List.nodup_append]
    refine ⟨h, List.nodup_singleton r.id, ?_⟩
    intro a ha hb
    rcases List.mem_singleton.mp hb with rfl
    rcases List.mem_map.mp ha with ⟨x, hx, hid⟩
    have hfalse := List.any_eq_false.mp hc x hx
    rw [hid] at hfalse
    simp at hfalse

/-- C6: rule-id uniqueness is an invariant of the registry: starting from a
registry with pairwise distinct ids, any sequence of rule creations, edits
and toggles leaves the ids pairwise distinct. -/
theorem rule_id_uniqueness_invariant :
    ∀ (τ α : Type) (init : List (DQRule τ α)) (ops : List (RegistryOp τ α)),
      (init.map DQRule.id).Nodup →
      ((applyRegistryOps init ops).map DQRule.id).Nodup := by
  intro τ α init ops
  induction ops generalizing init with
  | nil => exact fun h => h
  | cons op rest ih =>
    intro h
    have hstep : ((applyRegistryOp init op).map DQRule.id).Nodup := by
      cases op with
      | create r => exact createRule_nodup_id init r h
      | edit rid f =>
        show ((editRule init rid f).map DQRule.id).Nodup
        rw [editRule_map_id]
        exact h
      | toggle rid =>
        show ((toggleRuleInRegistry init rid).map DQRule.id).Nodup
        rw [toggleRuleInRegistry_map_id]
        exact h
    show ((List.foldl applyRegistryOp init (op :: rest)).map DQRule.id).Nodup
    rw [List.foldl_cons]
    exact ih (applyRegistryOp init op) hstep

/-- C6 witness: creating two rules and toggling one keeps the ids distinct. -/
theorem rule_id_uniqueness_invariant_witness :
    ((applyRegistryOps ([] : List (DQRule Nat Bool))
        [RegistryOp.create
          ⟨"r1", "n1", "cat", "sev", "tbl", "col", true, fun _ => true, "m1"⟩,
         RegistryOp.create
          ⟨"r2", "n2", "cat", "sev", "tbl", "col", true, fun _ => false, "m2"⟩,
         RegistryOp.toggle "r1"]).map DQRule.id).Nodup :=
  rule_id_uniqueness_invariant Nat Bool []
    [RegistryOp.create
      ⟨"r1", "n1", "cat", "sev", "tbl", "col", true, fun _ => true, "m1"⟩,
     RegistryOp.create
      ⟨"r2", "n2", "cat", "sev", "tbl", "col", true, fun _ => false, "m2"⟩,
     RegistryOp.toggle "r1"] (by decide)

/-! ## String-rewriting lemmas for `fix_column_quotes` -/

lemma preOf_nil_any (s : List Char) : PreOf [] s :=
  ⟨s, rfl⟩

lemma preOf_of_nil {v : List Char} (h : PreOf v []) : v = [] := by
  obtain ⟨w, hw⟩ := h
  exact (List.append_eq_nil.mp hw.symm).1

lemma sufOf_refl (s : List Char) : SufOf s s :=
  ⟨[], rfl⟩

lemma sufOf_trans {a b c : List Char} (h1 : SufOf a b) (h2 : SufOf b c) :
    SufOf a c := by
  obtain ⟨u, hu⟩ := h1
  obtain ⟨w, hw⟩ := h2
  exact ⟨w ++ u, by rw [hw, hu, List.append_assoc]⟩

lemma sufOf_drop (s : List Char) (n : Nat) : SufOf (s.drop n) s :=
  ⟨s.take n, (List.take_append_drop n s).symm⟩

lemma occursIn_of_preOf {p s : List Char} (h : PreOf p s) : OccursIn p s := by
  obtain ⟨v, hv⟩ := h
  exact ⟨[], v, by simpa using hv⟩

lemma occursIn_of_sufOf_occursIn {p s2 s : List Char} (h : OccursIn p s2)
    (hs : SufOf s2 s) : OccursIn p s := by
  obtain ⟨u, v, huv⟩ := h
  obtain ⟨w, hw⟩ := hs
  exact ⟨w ++ u, v, by rw [hw, huv]; simp [List.append_assoc]⟩

lemma occursIn_cons_iff {p : List Char} {c : Char} {s : List Char} :
    OccursIn p (c :: s) ↔ PreOf p (c :: s) ∨ OccursIn p s := by
  constructor
  · rintro ⟨u, v, huv⟩
    cases u with
    | nil => exact Or.inl ⟨v, by simpa using huv⟩
    | cons a u2 =>
      rw [List.cons_append, List.cons_append] at huv
      injection huv with h1 h2
      exact Or.inr ⟨u2, v, h2⟩
  · rintro (⟨v, hv⟩ | ⟨u, v, huv⟩)
    · exact ⟨[], v, by simpa using hv⟩
    · exact ⟨c :: u, v, by rw [huv]; rfl⟩

lemma not_occursIn_nil {p : List Char} (hp : p ≠ []) : ¬ OccursIn p [] := by
  rintro ⟨u, v, huv⟩
  rcases List.append_eq_nil.mp huv.symm with ⟨h1, -⟩
  rcases List.append_eq_nil.mp h1 with ⟨-, h2⟩
  exact hp h2

lemma startsWith_iff (p s : List Char) : startsWith p s = true ↔ PreOf p s := by
  induction p generalizing s with
  | nil => simp [startsWith, preOf_nil_any]
  | cons a as ih =>
    cases s with
    | nil =>
      simp only [startsWith, Bool.false_eq_true, false_iff]
      rintro ⟨v, hv⟩
      exact List.cons_ne_nil a (as ++ v) hv.symm
    | cons b bs =>
      simp only [startsWith, Bool.and_eq_true, beq_iff_eq]
      constructor
      · rintro ⟨rfl, h2⟩
        obtain ⟨v, hv⟩ := (ih bs).mp h2
        exact ⟨v, by rw [List.cons_append, hv]⟩
      · rintro ⟨v, hv⟩
        rw [List.cons_append] at hv
        injection hv with h1 h2
        exact ⟨h1.symm, (ih bs).mpr ⟨v, h2⟩⟩

lemma replaceList_nil (p t : List Char) : replaceList p t [] = [] := by
  simp [replaceList]

lemma replaceList_cons_pos (p t : List Char) (c : Char) (cs : List Char)
    (hp : p ≠ []) (hs : startsWith p (c :: cs) = true) :
    replaceList p t (c :: cs) =
      t ++ replaceList p t ((c :: cs).drop p.length) := by
  rw [replaceList]
  rw [dif_pos ⟨hp, hs⟩]

lemma replaceList_cons_neg (p t : List Char) (c : Char) (cs : List Char)
    (h : ¬ (p ≠ [] ∧ startsWith p (c :: cs) = true)) :
    replaceList p t (c :: cs) = c :: replaceList p t cs := by
  rw [replaceList]
  rw [dif_neg h]

lemma preOf_append_left {v t x : List Char} (h : PreOf v (t ++ x))
    (hlen : v.length ≤ t.length) : PreOf v t := by
  obtain ⟨w, hw⟩ := h
  have hv : v = t.take v.length := by
    have h1 : (t ++ x).take v.length = t.take v.length :=
      List.take_append_of_le_length hlen
    rw [hw] at h1
    rw [List.take_append_of_le_length (Nat.le_refl v.length)] at h1
    rw [List.take_length] at h1
    exact h1
  have h2 := List.take_append_drop v.length t
  rw [← hv] at h2
  exact ⟨t.drop v.length, h2.symm⟩

lemma replaceList_eq_self_of_not_occursIn (p t s : List Char)
    (h : ¬ OccursIn p s) : replaceList p t s = s := by
  induction s with
  | nil => exact replaceList_nil p t
  | cons c cs ih =>
    have hcond : ¬ (p ≠ [] ∧ startsWith p (c :: cs) = true) := by
      rintro ⟨hp, hs⟩
      exact h (occursIn_of_preOf ((startsWith_iff p (c :: cs)).mp hs))
    rw [replaceList_cons_neg p t c cs hcond]
    rw [ih (fun h2 => h (occursIn_cons_iff.mpr (Or.inr h2)))]

lemma occursIn_append_decomp (p a b : List Char) (h : OccursIn p (a ++ b)) :
    OccursIn p a ∨ OccursIn p b ∨
      ∃ a1 b1, p = a1 ++ b1 ∧ a1 ≠ [] ∧ b1 ≠ [] ∧ SufOf a1 a ∧ PreOf b1 b := by
  obtain ⟨u, v, huv⟩ := h
  by_cases h1 : u.length + p.length ≤ a.length
  · left
    have ha : a = (u ++ p) ++ v.take (a.length - (u.length + p.length)) := by
      calc a = (a ++ b).take a.length := (List.take_left a b).symm
        _ = ((u ++ p) ++ v).take a.length := by rw [huv]
        _ = (u ++ p).take a.length ++ v.take (a.length - (u ++ p).length) :=
            List.take_append_eq_append_take
        _ = (u ++ p) ++ v.take (a.length - (u.length + p.length)) := by
            rw [List.take_of_length_le (by rw [List.length_append]; exact h1),
              List.length_append]
    exact ⟨u, v.take (a.length - (u.length + p.length)), ha⟩
  · by_cases h2 : a.length ≤ u.length
    · right; left
      have hb : b = (u.drop a.length ++ p) ++ v := by
        calc b = (a ++ b).drop a.length := (List.drop_left a b).symm
          _ = ((u ++ p) ++ v).drop a.length := by rw [huv]
          _ = (u ++ p).drop a.length ++ v.drop (a.length - (u ++ p).length) :=
              List.drop_append_eq_append_drop
          _ = (u ++ p).drop a.length ++ v := by
              rw [Nat.sub_eq_zero_of_le (by rw [List.length_append]; omega),
                List.drop_zero]
          _ = (u.drop a.length ++ p.drop (a.length - u.length)) ++ v := by
              rw [List.drop_append_eq_append_drop]
          _ = (u.drop a.length ++ p) ++ v := by
              rw [Nat.sub_eq_zero_of_le h2, List.drop_zero]
      exact ⟨u.drop a.length, v, hb⟩
    · right; right
      push_neg at h1 h2
      refine ⟨p.take (a.length - u.length), p.drop (a.length - u.length),
        (List.take_append_drop _ p).symm, ?_, ?_, ?_, ?_⟩
      · apply List.length_pos.mp
        rw [List.length_take]
        omega
      · apply List.length_pos.mp
        rw [List.length_drop]
        omega
      · refine ⟨u, ?_⟩
        calc a = (a ++ b).take a.length := (List.take_left a b).symm
          _ = ((u ++ p) ++ v).take a.length := by rw [huv]
          _ = (u ++ p).take a.length ++ v.take (a.length - (u ++ p).length) :=
              List.take_append_eq_append_take
          _ = (u ++ p).take a.length := by
              rw [Nat.sub_eq_zero_of_le (by rw [List.length_append]; omega),
                List.take_zero, List.append_nil]
          _ = u.take a.length ++ p.take (a.length - u.length) :=
              List.take_append_eq_append_take
          _ = u ++ p.take (a.length - u.length) := by
              rw [List.take_of_length_le (Nat.le_of_lt h2)]
      · refine ⟨v, ?_⟩
        calc b = (a ++ b).drop a.length := (List.drop_left a b).symm
          _ = ((u ++ p) ++ v).drop a.length := by rw [huv]
          _ = (u ++ p).drop a.length ++ v.drop (a.length - (u ++ p).length) :=
              List.drop_append_eq_append_drop
          _ = (u ++ p).drop a.length ++ v := by
              rw [Nat.sub_eq_zero_of_le (by rw [List.length_append]; omega),
                List.drop_zero]
          _ = (u.drop a.length ++ p.drop (a.length - u.length)) ++ v := by
              rw [List.drop_append_eq_append_drop]
          _ = p.drop (a.length - u.length) ++ v := by
              rw [List.drop_of_length_le (Nat.le_of_lt h2), List.nil_append]

lemma preOf_replaceList (pat t : List Char) :
    ∀ n s, s.length ≤ n → ∀ v, PreOf v (replaceList pat t s) →
      PreOf v s ∨ ∃ w t1, v = w ++ t1 ∧ t1 ≠ [] ∧
        (PreOf t1 t ∨ t.length ≤ t1.length) := by
  intro n
  induction n with
  | zero =>
    intro s hs v hv
    have hnil : s = [] := List.length_eq_zero.mp (Nat.le_zero.mp hs)
    subst hnil
    rw [replaceList_nil] at hv
    exact Or.inl (by rw [preOf_of_nil hv]; exact preOf_nil_any [])
  | succ n ih =>
    intro s hs v hv
    cases s with
    | nil =>
      rw [replaceList_nil] at hv
      exact Or.inl (by rw [preOf_of_nil hv]; exact preOf_nil_any [])
    | cons c cs =>
      by_cases hcond : pat ≠ [] ∧ startsWith pat (c :: cs) = true
      · rw [replaceList_cons_pos pat t c cs hcond.1 hcond.2] at hv
        rcases Classical.em (v = []) with rfl | hvne
        · exact Or.inl (preOf_nil_any _)
        · right
          by_cases hlen : v.length ≤ t.length
          · exact ⟨[], v, by simp, hvne, Or.inl (preOf_append_left hv hlen)⟩
          · exact ⟨[], v, by simp, hvne, Or.inr (by omega)⟩
      · rw [replaceList_cons_neg pat t c cs hcond] at hv
        cases v with
        | nil => exact Or.inl (preOf_nil_any _)
        | cons a v2 =>
          obtain ⟨w2, hw2⟩ := hv
          rw [List.cons_append] at hw2
          injection hw2 with hac hrest
          have hv2 : PreOf v2 (replaceList pat t cs) := ⟨w2, hrest⟩
          have hcs : cs.length ≤ n := by
            simp only [List.length_cons] at hs
            omega
          rcases ih cs hcs v2 hv2 with hc | ⟨w, t1, heq, ht1, hor⟩
          · obtain ⟨x, hx⟩ := hc
            exact Or.inl ⟨x, by rw [List.cons_append, ← hx, hac]⟩
          · right
            exact ⟨a :: w, t1, by rw [List.cons_append, ← heq], ht1, hor⟩

lemma no_occursIn_replaceList (p pat t : List Char) (hp : p ≠ [])
    (hpat : pat ≠ []) (hA : ¬ OccursIn p t)
    (hB : ∀ a1 b1, p = a1 ++ b1 → a1 ≠ [] → b1 ≠ [] → ¬ SufOf a1 t)
    (hC : ∀ a1 b1, p = a1 ++ b1 → a1 ≠ [] → b1 ≠ [] → ¬ PreOf b1 t)
    (hL : p.length ≤ t.length) :
    ∀ n s, s.length ≤ n →
      (∀ s2, SufOf s2 s → PreOf p s2 → PreOf pat s2) →
      ¬ OccursIn p (replaceList pat t s) := by
  intro n
  induction n with
  | zero =>
    intro s hs hHs
    have hnil : s = [] := List.length_eq_zero.mp (Nat.le_zero.mp hs)
    subst hnil
    rw [replaceList_nil]
    exact not_occursIn_nil hp
  | succ n ih =>
    intro s hs hHs
    cases s with
    | nil =>
      rw [replaceList_nil]
      exact not_occursIn_nil hp
    | cons c cs =>
      by_cases hcond : startsWith pat (c :: cs) = true
      · rw [replaceList_cons_pos pat t c cs hpat hcond]
        intro hOcc
        rcases occursIn_append_decomp p t _ hOcc with
          hx | hx | ⟨a1, b1, hsplit, ha1, hb1, hsuf, -⟩
        · exact hA hx
        · have hpat_pos : 0 < pat.length := List.length_pos.mpr hpat
          have hlen2 : ((c :: cs).drop pat.length).length ≤ n := by
            rw [List.length_drop]
            simp only [List.length_cons] at hs ⊢
            omega
          exact ih ((c :: cs).drop pat.length) hlen2
            (fun s2 hs2 hp2 => hHs s2 (sufOf_trans hs2 (sufOf_drop _ _)) hp2) hx
        · exact hB a1 b1 hsplit ha1 hb1 hsuf
      · have hcond2 : ¬ (pat ≠ [] ∧ startsWith pat (c :: cs) = true) :=
          fun hand => hcond hand.2
        rw [replaceList_cons_neg pat t c cs hcond2]
        intro hOcc
        rcases occursIn_cons_iff.mp hOcc with hpre | hocc2
        · cases p with
          | nil => exact hp rfl
          | cons pc p2 =>
            obtain ⟨w2, hw2⟩ := hpre
            rw [List.cons_append] at hw2
            injection hw2 with hcp hrest
            have hp2 : PreOf p2 (replaceList pat t cs) := ⟨w2, hrest⟩
            rcases preOf_replaceList pat t cs.length cs (Nat.le_refl _) p2 hp2
              with hc | ⟨w, t1, heq, ht1, hor⟩
            · obtain ⟨x, hx⟩ := hc
              have hps : PreOf (pc :: p2) (c :: cs) :=
                ⟨x, by rw [List.cons_append, ← hx, hcp]⟩
              have := hHs (c :: cs) (sufOf_refl _) hps
              exact hcond ((startsWith_iff pat (c :: cs)).mpr this)
            · rcases hor with hpt | hlen2
              · exact hC (pc :: w) t1
                  (by rw [List.cons_append, ← heq])
                  (List.cons_ne_nil pc w) ht1 hpt
              · have e1 : p2.length = w.length + t1.length := by
                  rw [heq, List.length_append]
                have e2 : (pc :: p2).length = p2.length + 1 := by simp
                have e3 := hL
                have ht1pos : 0 < t1.length := List.length_pos.mpr ht1
                omega
        · exact ih cs (by simp only [List.length_cons] at hs; omega)
            (fun s2 hs2 hp2 => hHs s2 (sufOf_trans hs2 ⟨[c], rfl⟩) hp2) hocc2

lemma sufOf_getLast? {a s : List Char} (h : SufOf a s) (ha : a ≠ []) :
    s.getLast? = a.getLast? := by
  obtain ⟨w, rfl⟩ := h
  exact List.getLast?_append_of_ne_nil w ha

lemma length_tripleQuoted (col : List Char) :
    (tripleQuoted col).length = col.length + 10 := by
  simp [tripleQuoted]

lemma length_pat1 (col : List Char) : (pat1 col).length = col.length + 6 := by
  simp [pat1]

lemma length_pat2 (col : List Char) : (pat2 col).length = col.length + 6 := by
  simp [pat2]

lemma length_pat3 (col : List Char) : (pat3 col).length = col.length + 4 := by
  simp [pat3]

lemma tripleQuoted_ne_nil (col : List Char) : tripleQuoted col ≠ [] := by
  simp [tripleQuoted]

lemma pat1_ne_nil (col : List Char) : pat1 col ≠ [] := by
  simp [pat1]

lemma pat2_ne_nil (col : List Char) : pat2 col ≠ [] := by
  simp [pat2]

lemma pat3_ne_nil (col : List Char) : pat3 col ≠ [] := by
  simp [pat3]

lemma getLast?_tripleQuoted (col : List Char) :
    (tripleQuoted col).getLast? = some ']' := by
  have ht : tripleQuoted col =
      ('d' :: 'f' :: '[' :: singleQuote :: singleQuote :: singleQuote :: col ++
        [singleQuote, singleQuote, singleQuote]) ++ [']'] := by
    simp [tripleQuoted]
  rw [ht, List.getLast?_concat]

lemma getLast?_pat1 (col : List Char) : (pat1 col).getLast? = some ']' := by
  have hp : pat1 col =
      ('d' :: 'f' :: '[' :: singleQuote :: col ++ [singleQuote]) ++ [']'] := by
    simp [pat1]
  rw [hp, List.getLast?_concat]

lemma getLast?_pat2 (col : List Char) : (pat2 col).getLast? = some ']' := by
  have hp : pat2 col =
      ('d' :: 'f' :: '[' :: doubleQuote :: col ++ [doubleQuote]) ++ [']'] := by
    simp [pat2]
  rw [hp, List.getLast?_concat]

lemma getLast?_pat3 (col : List Char) : (pat3 col).getLast? = some ']' := by
  have hp : pat3 col = ('d' :: 'f' :: '[' :: col) ++ [']'] := by
    simp [pat3]
  rw [hp, List.getLast?_concat]

lemma not_mem_pat3_q (col : List Char) (hq : singleQuote ∉ col) :
    singleQuote ∉ pat3 col := by
  intro h
  simp only [pat3, List.mem_cons, List.mem_append, List.mem_singleton] at h
  rcases h with h | h | h | h | h
  · exact absurd h (by decide)
  · exact absurd h (by decide)
  · exact absurd h (by decide)
  · exact hq h
  · exact absurd h (by decide)

lemma not_mem_pat2_q (col : List Char) (hq : singleQuote ∉ col) :
    singleQuote ∉ pat2 col := by
  intro h
  simp only [pat2, List.mem_cons, List.mem_append, List.mem_singleton] at h
  rcases h with h | h | h | h | h | h
  · exact absurd h (by decide)
  · exact absurd h (by decide)
  · exact absurd h (by decide)
  · exact absurd h (by decide)
  · exact hq h
  · rcases h with h | h
    · exact absurd h (by decide)
    · exact absurd h (by decide)

lemma not_mem_tripleQuoted_dq (col : List Char) (hdq : doubleQuote ∉ col) :
    doubleQuote ∉ tripleQuoted col := by
  intro h
  simp only [tripleQuoted, List.mem_cons, List.mem_append,
    List.mem_singleton] at h
  rcases h with h | h | h | h | h | h | h | h
  · exact absurd h (by decide)
  · exact absurd h (by decide)
  · exact absurd h (by decide)
  · exact absurd h (by decide)
  · exact absurd h (by decide)
  · exact absurd h (by decide)
  · exact hdq h
  · rcases h with h | h | h | h
    · exact absurd h (by decide)
    · exact absurd h (by decide)
    · exact absurd h (by decide)
    · exact absurd h (by decide)

lemma count_q_tripleQuoted (col : List Char) (hq : singleQuote ∉ col) :
    List.count singleQuote (tripleQuoted col) = 6 := by
  have ht : tripleQuoted col =
      ['d', 'f', '[', singleQuote, singleQuote, singleQuote] ++
        (col ++ [singleQuote, singleQuote, singleQuote, ']']) := by
    simp [tripleQuoted]
  rw [ht, List.count_append, List.count_append,
    List.count_eq_zero.mpr hq]
  decide

lemma count_q_pat1 (col : List Char) (hq : singleQuote ∉ col) :
    List.count singleQuote (pat1 col) = 2 := by
  have hp : pat1 col =
      ['d', 'f', '[', singleQuote] ++ (col ++ [singleQuote, ']']) := by
    simp [pat1]
  rw [hp, List.count_append, List.count_append,
    List.count_eq_zero.mpr hq]
  decide

lemma count_q_pat3 (col : List Char) (hq : singleQuote ∉ col) :
    List.count singleQuote (pat3 col) = 0 := by
  exact List.count_eq_zero.mpr (not_mem_pat3_q col hq)

lemma not_occursIn_pat2_tripleQuoted (col : List Char)
    (hdq : doubleQuote ∉ col) :
    ¬ OccursIn (pat2 col) (tripleQuoted col) := by
  rintro ⟨u, v, huv⟩
  have hmem2 : doubleQuote ∈ pat2 col := by simp [pat2]
  have hmem : doubleQuote ∈ tripleQuoted col := by
    rw [huv]
    exact List.mem_append.mpr (Or.inl (List.mem_append.mpr (Or.inr hmem2)))
  exact not_mem_tripleQuoted_dq col hdq hmem

lemma not_occursIn_pat1_tripleQuoted (col : List Char)
    (hq : singleQuote ∉ col) :
    ¬ OccursIn (pat1 col) (tripleQuoted col) := by
  rintro ⟨u, v, huv⟩
  have hc : List.count singleQuote (tripleQuoted col) =
      List.count singleQuote u +
        (List.count singleQuote (pat1 col) + List.count singleQuote v) := by
    rw [huv, List.count_append, List.count_append]
    omega
  have hlen : (tripleQuoted col).length =
      u.length + ((pat1 col).length + v.length) := by
    rw [huv, List.length_append, List.length_append]
    omega
  rw [count_q_tripleQuoted col hq, count_q_pat1 col hq] at hc
  rw [length_tripleQuoted, length_pat1] at hlen
  have hcu : List.count singleQuote u ≤ u.length := List.count_le_length _ _
  have hcv : List.count singleQuote v ≤ v.length := List.count_le_length _ _
  have huq : List.count singleQuote u = u.length := by omega
  have hvq : List.count singleQuote v = v.length := by omega
  cases u with
  | cons x xs =>
    have hx : x = singleQuote :=
      ((List.count_eq_length.mp huq) x (List.mem_cons_self x xs)).symm
    simp only [tripleQuoted] at huv
    rw [List.cons_append, List.cons_append] at huv
    injection huv with h1 h2
    rw [hx] at h1
    exact absurd h1 (by decide)
  | nil =>
    have hv4 : v.length = 4 := by
      simp only [List.length_nil] at hlen
      omega
    have hvne : v ≠ [] := by
      intro h
      rw [h] at hv4
      simp at hv4
    have hgl : (tripleQuoted col).getLast? = v.getLast? := by
      rw [huv]
      simp only [List.nil_append]
      exact List.getLast?_append_of_ne_nil _ hvne
    have hvl : v.getLast? = some singleQuote := by
      rw [List.getLast?_eq_getLast v hvne]
      have hmem := List.getLast_mem hvne
      rw [← (List.count_eq_length.mp hvq) _ hmem]
    rw [getLast?_tripleQuoted, hvl] at hgl
    injection hgl with h1
    exact absurd h1 (by decide)

lemma not_occursIn_pat3_tripleQuoted (col : List Char)
    (hq : singleQuote ∉ col) :
    ¬ OccursIn (pat3 col) (tripleQuoted col) := by
  rintro ⟨u, v, huv⟩
  have hc : List.count singleQuote (tripleQuoted col) =
      List.count singleQuote u +
        (List.count singleQuote (pat3 col) + List.count singleQuote v) := by
    rw [huv, List.count_append, List.count_append]
    omega
  have hlen : (tripleQuoted col).length =
      u.length + ((pat3 col).length + v.length) := by
    rw [huv, List.length_append, List.length_append]
    omega
  rw [count_q_tripleQuoted col hq, count_q_pat3 col hq] at hc
  rw [length_tripleQuoted, length_pat3] at hlen
  have hcu : List.count singleQuote u ≤ u.length := List.count_le_length _ _
  have hcv : List.count singleQuote v ≤ v.length := List.count_le_length _ _
  have huq : List.count singleQuote u = u.length := by omega
  have hvq : List.count singleQuote v = v.length := by omega
  cases u with
  | cons x xs =>
    have hx : x = singleQuote :=
      ((List.count_eq_length.mp huq) x (List.mem_cons_self x xs)).symm
    simp only [tripleQuoted] at huv
    rw [List.cons_append, List.cons_append] at huv
    injection huv with h1 h2
    rw [hx] at h1
    exact absurd h1 (by decide)
  | nil =>
    have hv4 : v.length = 6 := by
      simp only [List.length_nil] at hlen
      omega
    have hvne : v ≠ [] := by
      intro h
      rw [h] at hv4
      simp at hv4
    have hgl : (tripleQuoted col).getLast? = v.getLast? := by
      rw [huv]
      simp only [List.nil_append]
      exact List.getLast?_append_of_ne_nil _ hvne
    have hvl : v.getLast? = some singleQuote := by
      rw [List.getLast?_eq_getLast v hvne]
      have hmem := List.getLast_mem hvne
      rw [← (List.count_eq_length.mp hvq) _ hmem]
    rw [getLast?_tripleQuoted, hvl] at hgl
    injection hgl with h1
    exact absurd h1 (by decide)

lemma count_take_mono (a : Char) (l : List Char) (m M : Nat) (hm : m ≤ M) :
    List.count a (l.take m) ≤ List.count a (l.take M) := by
  have heq : l.take m = (l.take M).take m := by
    rw [List.take_take, Nat.min_eq_left hm]
  rw [heq]
  exact List.Sublist.count_le (List.take_sublist _ _) _

lemma count_q_take_six (col : List Char) (hq : singleQuote ∉ col) :
    List.count singleQuote ((tripleQuoted col).take (col.length + 6)) = 3 := by
  have ht : tripleQuoted col =
      ['d', 'f', '[', singleQuote, singleQuote, singleQuote] ++
        (col ++ [singleQuote, singleQuote, singleQuote, ']']) := by
    simp [tripleQuoted]
  rw [ht, List.take_append_eq_append_take]
  rw [List.take_of_length_le
    (show (['d', 'f', '[', singleQuote, singleQuote, singleQuote] :
      List Char).length ≤ col.length + 6 from by simp)]
  have h2 : col.length + 6 -
      (['d', 'f', '[', singleQuote, singleQuote, singleQuote] :
        List Char).length = col.length := by
    simp
  rw [h2, List.take_append_eq_append_take, List.take_length, Nat.sub_self,
    List.take_zero, List.append_nil, List.count_append,
    List.count_eq_zero.mpr hq]
  decide

lemma count_q_take_eight (col : List Char) (hq : singleQuote ∉ col) :
    List.count singleQuote ((tripleQuoted col).take (col.length + 8)) = 5 := by
  have ht : tripleQuoted col =
      ['d', 'f', '[', singleQuote, singleQuote, singleQuote] ++
        (col ++ [singleQuote, singleQuote, singleQuote, ']']) := by
    simp [tripleQuoted]
  rw [ht, List.take_append_eq_append_take]
  rw [List.take_of_length_le
    (show (['d', 'f', '[', singleQuote, singleQuote, singleQuote] :
      List Char).length ≤ col.length + 8 from by simp)]
  have h2 : col.length + 8 -
      (['d', 'f', '[', singleQuote, singleQuote, singleQuote] :
        List Char).length = col.length + 2 := by
    simp
  rw [h2, List.take_append_eq_append_take]
  rw [List.take_of_length_le (show col.length ≤ col.length + 2 from by omega)]
  have h3 : col.length + 2 - col.length = 2 := by omega
  rw [h3, List.count_append, List.count_append, List.count_eq_zero.mpr hq]
  decide

lemma sufOf_q_free_short (col : List Char) (hq : singleQuote ∉ col)
    (a1 : List Char) (hsuf : SufOf a1 (tripleQuoted col))
    (hc : List.count singleQuote a1 = 0) : a1.length ≤ 1 := by
  obtain ⟨w, hw⟩ := hsuf
  have hcw : List.count singleQuote w = 6 := by
    have hct := count_q_tripleQuoted col hq
    rw [hw, List.count_append, hc] at hct
    omega
  by_contra hlen
  push_neg at hlen
  have hwl : w.length + a1.length = col.length + 10 := by
    have hlt := length_tripleQuoted col
    rw [hw, List.length_append] at hlt
    omega
  have hwtake : w = (tripleQuoted col).take w.length := by
    rw [hw]
    exact (List.take_left w a1).symm
  have hbound : List.count singleQuote w ≤ 5 := by
    rw [hwtake]
    calc List.count singleQuote ((tripleQuoted col).take w.length)
        ≤ List.count singleQuote ((tripleQuoted col).take (col.length + 8)) :=
          count_take_mono _ _ _ _ (by omega)
      _ = 5 := count_q_take_eight col hq
  omega

lemma sufOf_q_le_two_short (col : List Char) (hq : singleQuote ∉ col)
    (a1 : List Char) (hsuf : SufOf a1 (tripleQuoted col))
    (hc : List.count singleQuote a1 ≤ 2) : a1.length ≤ 3 := by
  obtain ⟨w, hw⟩ := hsuf
  have hcw : 4 ≤ List.count singleQuote w := by
    have hct := count_q_tripleQuoted col hq
    rw [hw, List.count_append] at hct
    omega
  by_contra hlen
  push_neg at hlen
  have hwl : w.length + a1.length = col.length + 10 := by
    have hlt := length_tripleQuoted col
    rw [hw, List.length_append] at hlt
    omega
  have hwtake : w = (tripleQuoted col).take w.length := by
    rw [hw]
    exact (List.take_left w a1).symm
  have hbound : List.count singleQuote w ≤ 3 := by
    rw [hwtake]
    calc List.count singleQuote ((tripleQuoted col).take w.length)
        ≤ List.count singleQuote ((tripleQuoted col).take (col.length + 6)) :=
          count_take_mono _ _ _ _ (by omega)
      _ = 3 := count_q_take_six col hq
  omega

lemma pat3_front_piece_not_tq_tail (col : List Char)
    (hq : singleQuote ∉ col) :
    ∀ a1 b1, pat3 col = a1 ++ b1 → a1 ≠ [] → b1 ≠ [] →
      ¬ SufOf a1 (tripleQuoted col) := by
  intro a1 b1 hsplit ha1 hb1 hsuf
  have hc : List.count singleQuote a1 = 0 := by
    have h0 := count_q_pat3 col hq
    rw [hsplit, List.count_append] at h0
    omega
  have hlen := sufOf_q_free_short col hq a1 hsuf hc
  rcases a1 with _ | ⟨x1, tl⟩
  · exact ha1 rfl
  · have htl : tl = [] := by
      simp only [List.length_cons] at hlen
      exact List.length_eq_zero.mp (by omega)
    subst htl
    simp only [pat3, List.singleton_append] at hsplit
    injection hsplit with e1 e2
    have hgl := sufOf_getLast? hsuf (List.cons_ne_nil x1 [])
    rw [getLast?_tripleQuoted] at hgl
    rw [show ([x1] : List Char).getLast? = some x1 from rfl] at hgl
    injection hgl with h3
    rw [← e1] at h3
    exact absurd h3 (by decide)

lemma pat1_front_piece_not_tq_tail (col : List Char)
    (hq : singleQuote ∉ col) :
    ∀ a1 b1, pat1 col = a1 ++ b1 → a1 ≠ [] → b1 ≠ [] →
      ¬ SufOf a1 (tripleQuoted col) := by
  intro a1 b1 hsplit ha1 hb1 hsuf
  have hc2 : List.count singleQuote a1 ≤ 2 := by
    have h0 := count_q_pat1 col hq
    rw [hsplit, List.count_append] at h0
    omega
  have hlen3 := sufOf_q_le_two_short col hq a1 hsuf hc2
  rcases a1 with _ | ⟨x1, _ | ⟨x2, _ | ⟨x3, tl⟩⟩⟩
  · exact ha1 rfl
  · simp only [pat1, List.singleton_append] at hsplit
    injection hsplit with e1 e2
    have hgl := sufOf_getLast? hsuf (List.cons_ne_nil x1 [])
    rw [getLast?_tripleQuoted] at hgl
    rw [show ([x1] : List Char).getLast? = some x1 from rfl] at hgl
    injection hgl with h3
    rw [← e1] at h3
    exact absurd h3 (by decide)
  · simp only [pat1, List.cons_append, List.nil_append] at hsplit
    injection hsplit with e1 hsplit2
    injection hsplit2 with e2 hsplit3
    have hc0 : List.count singleQuote [x1, x2] = 0 := by
      rw [← e1, ← e2]
      decide
    have hshort := sufOf_q_free_short col hq [x1, x2] hsuf hc0
    simp at hshort
  · have htl : tl = [] := by
      simp only [List.length_cons] at hlen3
      exact List.length_eq_zero.mp (by omega)
    subst htl
    simp only [pat1, List.cons_append, List.nil_append] at hsplit
    injection hsplit with e1 hsplit2
    injection hsplit2 with e2 hsplit3
    injection hsplit3 with e3 hsplit4
    have hc0 : List.count singleQuote [x1, x2, x3] = 0 := by
      rw [← e1, ← e2, ← e3]
      decide
    have hshort := sufOf_q_free_short col hq [x1, x2, x3] hsuf hc0
    simp at hshort

lemma pat2_front_piece_not_tq_tail (col : List Char)
    (hdq : doubleQuote ∉ col) :
    ∀ a1 b1, pat2 col = a1 ++ b1 → a1 ≠ [] → b1 ≠ [] →
      ¬ SufOf a1 (tripleQuoted col) := by
  intro a1 b1 hsplit ha1 hb1 hsuf
  rcases a1 with _ | ⟨x1, _ | ⟨x2, _ | ⟨x3, _ | ⟨x4, tl⟩⟩⟩⟩
  · exact ha1 rfl
  · simp only [pat2, List.singleton_append] at hsplit
    injection hsplit with e1 e2
    have hgl := sufOf_getLast? hsuf (List.cons_ne_nil x1 [])
    rw [getLast?_tripleQuoted] at hgl
    rw [show ([x1] : List Char).getLast? = some x1 from rfl] at hgl
    injection hgl with h3
    rw [← e1] at h3
    exact absurd h3 (by decide)
  · simp only [pat2, List.cons_append, List.nil_append] at hsplit
    injection hsplit with e1 hsplit2
    injection hsplit2 with e2 hsplit3
    have hgl := sufOf_getLast? hsuf (by simp)
    rw [getLast?_tripleQuoted] at hgl
    rw [show ([x1, x2] : List Char).getLast? = some x2 from rfl] at hgl
    injection hgl with h3
    rw [← e2] at h3
    exact absurd h3 (by decide)
  · simp only [pat2, List.cons_append, List.nil_append] at hsplit
    injection hsplit with e1 hsplit2
    injection hsplit2 with e2 hsplit3
    injection hsplit3 with e3 hsplit4
    have hgl := sufOf_getLast? hsuf (by simp)
    rw [getLast?_tripleQuoted] at hgl
    rw [show ([x1, x2, x3] : List Char).getLast? = some x3 from rfl] at hgl
    injection hgl with h3
    rw [← e3] at h3
    exact absurd h3 (by decide)
  · simp only [pat2, List.cons_append, List.nil_append] at hsplit
    injection hsplit with e1 hsplit2
    injection hsplit2 with e2 hsplit3
    injection hsplit3 with e3 hsplit4
    injection hsplit4 with e4 hsplit5
    obtain ⟨w, hw⟩ := hsuf
    have hmem : doubleQuote ∈ tripleQuoted col := by
      rw [hw]
      apply List.mem_append.mpr
      right
      rw [← e4]
      simp
    exact not_mem_tripleQuoted_dq col hdq hmem

lemma pat1_rear_piece_not_tq_head (col : List Char)
    (hq : singleQuote ∉ col) :
    ∀ a1 b1, pat1 col = a1 ++ b1 → a1 ≠ [] → b1 ≠ [] →
      ¬ PreOf b1 (tripleQuoted col) := by
  intro a1 b1 hsplit ha1 hb1 hpre
  obtain ⟨v, hv⟩ := hpre
  have hglb : b1.getLast? = some ']' := by
    have hgl := getLast?_pat1 col
    rw [hsplit, List.getLast?_append_of_ne_nil a1 hb1] at hgl
    exact hgl
  rcases b1 with _ | ⟨y1, _ | ⟨y2, _ | ⟨y3, _ | ⟨y4, _ | ⟨y5, _ | ⟨y6, tl⟩⟩⟩⟩⟩⟩
  · exact hb1 rfl
  · simp only [tripleQuoted, List.singleton_append] at hv
    injection hv with e1 e2
    rw [show ([y1] : List Char).getLast? = some y1 from rfl] at hglb
    injection hglb with h3
    rw [← e1] at h3
    exact absurd h3 (by decide)
  · simp only [tripleQuoted, List.cons_append, List.nil_append] at hv
    injection hv with e1 hv2
    injection hv2 with e2 hv3
    rw [show ([y1, y2] : List Char).getLast? = some y2 from rfl] at hglb
    injection hglb with h3
    rw [← e2] at h3
    exact absurd h3 (by decide)
  · simp only [tripleQuoted, List.cons_append, List.nil_append] at hv
    injection hv with e1 hv2
    injection hv2 with e2 hv3
    injection hv3 with e3 hv4
    rw [show ([y1, y2, y3] : List Char).getLast? = some y3 from rfl] at hglb
    injection hglb with h3
    rw [← e3] at h3
    exact absurd h3 (by decide)
  · simp only [tripleQuoted, List.cons_append, List.nil_append] at hv
    injection hv with e1 hv2
    injection hv2 with e2 hv3
    injection hv3 with e3 hv4
    injection hv4 with e4 hv5
    rw [show ([y1, y2, y3, y4] : List Char).getLast? = some y4 from rfl] at hglb
    injection hglb with h3
    rw [← e4] at h3
    exact absurd h3 (by decide)
  · simp only [tripleQuoted, List.cons_append, List.nil_append] at hv
    injection hv with e1 hv2
    injection hv2 with e2 hv3
    injection hv3 with e3 hv4
    injection hv4 with e4 hv5
    injection hv5 with e5 hv6
    rw [show ([y1, y2, y3, y4, y5] : List Char).getLast? = some y5 from rfl]
      at hglb
    injection hglb with h3
    rw [← e5] at h3
    exact absurd h3 (by decide)
  · simp only [tripleQuoted, List.cons_append, List.nil_append] at hv
    injection hv with e1 hv2
    injection hv2 with e2 hv3
    injection hv3 with e3 hv4
    injection hv4 with e4 hv5
    injection hv5 with e5 hv6
    injection hv6 with e6 hv7
    have h0 := count_q_pat1 col hq
    rw [hsplit, List.count_append] at h0
    have hsplit_b : (y1 :: y2 :: y3 :: y4 :: y5 :: y6 :: tl : List Char) =
        [y1, y2, y3] ++ ([y4, y5, y6] ++ tl) := by
      simp
    have hcb : List.count singleQuote
        (y1 :: y2 :: y3 :: y4 :: y5 :: y6 :: tl : List Char) =
        List.count singleQuote [y1, y2, y3] +
          (List.count singleQuote [y4, y5, y6] +
            List.count singleQuote tl) := by
      rw [hsplit_b, List.count_append, List.count_append]
    have h456 : List.count singleQuote [y4, y5, y6] = 3 := by
      rw [← e4, ← e5, ← e6]
      decide
    omega

lemma pat2_rear_piece_not_tq_head (col : List Char)
    (hq : singleQuote ∉ col) :
    ∀ a1 b1, pat2 col = a1 ++ b1 → a1 ≠ [] → b1 ≠ [] →
      ¬ PreOf b1 (tripleQuoted col) := by
  intro a1 b1 hsplit ha1 hb1 hpre
  obtain ⟨v, hv⟩ := hpre
  have hglb : b1.getLast? = some ']' := by
    have hgl := getLast?_pat2 col
    rw [hsplit, List.getLast?_append_of_ne_nil a1 hb1] at hgl
    exact hgl
  rcases b1 with _ | ⟨y1, _ | ⟨y2, _ | ⟨y3, _ | ⟨y4, tl⟩⟩⟩⟩
  · exact hb1 rfl
  · simp only [tripleQuoted, List.singleton_append] at hv
    injection hv with e1 e2
    rw [show ([y1] : List Char).getLast? = some y1 from rfl] at hglb
    injection hglb with h3
    rw [← e1] at h3
    exact absurd h3 (by decide)
  · simp only [tripleQuoted, List.cons_append, List.nil_append] at hv
    injection hv with e1 hv2
    injection hv2 with e2 hv3
    rw [show ([y1, y2] : List Char).getLast? = some y2 from rfl] at hglb
    injection hglb with h3
    rw [← e2] at h3
    exact absurd h3 (by decide)
  · simp only [tripleQuoted, List.cons_append, List.nil_append] at hv
    injection hv with e1 hv2
    injection hv2 with e2 hv3
    injection hv3 with e3 hv4
    rw [show ([y1, y2, y3] : List Char).getLast? = some y3 from rfl] at hglb
    injection hglb with h3
    rw [← e3] at h3
    exact absurd h3 (by decide)
  · simp only [tripleQuoted, List.cons_append, List.nil_append] at hv
    injection hv with e1 hv2
    injection hv2 with e2 hv3
    injection hv3 with e3 hv4
    injection hv4 with e4 hv5
    have hmem : singleQuote ∈ pat2 col := by
      rw [hsplit]
      apply List.mem_append.mpr
      right
      rw [← e4]
      simp
    exact not_mem_pat2_q col hq hmem

lemma pat3_rear_piece_not_tq_head (col : List Char)
    (hq : singleQuote ∉ col) :
    ∀ a1 b1, pat3 col = a1 ++ b1 → a1 ≠ [] → b1 ≠ [] →
      ¬ PreOf b1 (tripleQuoted col) := by
  intro a1 b1 hsplit ha1 hb1 hpre
  obtain ⟨v, hv⟩ := hpre
  have hglb : b1.getLast? = some ']' := by
    have hgl := getLast?_pat3 col
    rw [hsplit, List.getLast?_append_of_ne_nil a1 hb1] at hgl
    exact hgl
  rcases b1 with _ | ⟨y1, _ | ⟨y2, _ | ⟨y3, _ | ⟨y4, tl⟩⟩⟩⟩
  · exact hb1 rfl
  · simp only [tripleQuoted, List.singleton_append] at hv
    injection hv with e1 e2
    rw [show ([y1] : List Char).getLast? = some y1 from rfl] at hglb
    injection hglb with h3
    rw [← e1] at h3
    exact absurd h3 (by decide)
  · simp only [tripleQuoted, List.cons_append, List.nil_append] at hv
    injection hv with e1 hv2
    injection hv2 with e2 hv3
    rw [show ([y1, y2] : List Char).getLast? = some y2 from rfl] at hglb
    injection hglb with h3
    rw [← e2] at h3
    exact absurd h3 (by decide)
  · simp only [tripleQuoted, List.cons_append, List.nil_append] at hv
    injection hv with e1 hv2
    injection hv2 with e2 hv3
    injection hv3 with e3 hv4
    rw [show ([y1, y2, y3] : List Char).getLast? = some y3 from rfl] at hglb
    injection hglb with h3
    rw [← e3] at h3
    exact absurd h3 (by decide)
  · simp only [tripleQuoted, List.cons_append, List.nil_append] at hv
    injection hv with e1 hv2
    injection hv2 with e2 hv3
    injection hv3 with e3 hv4
    injection hv4 with e4 hv5
    have hmem : singleQuote ∈ pat3 col := by
      rw [hsplit]
      apply List.mem_append.mpr
      right
      rw [← e4]
      simp
    exact not_mem_pat3_q col hq hmem

lemma fixRuleCode_no_occursIn (col code : List Char) (hq : singleQuote ∉ col)
    (hdq : doubleQuote ∉ col) :
    ¬ OccursIn (pat1 col) (fixRuleCode col code) ∧
    ¬ OccursIn (pat2 col) (fixRuleCode col code) ∧
    ¬ OccursIn (pat3 col) (fixRuleCode col code) := by
  have hL1 : (pat1 col).length ≤ (tripleQuoted col).length := by
    rw [length_pat1, length_tripleQuoted]
    omega
  have hL2 : (pat2 col).length ≤ (tripleQuoted col).length := by
    rw [length_pat2, length_tripleQuoted]
    omega
  have hL3 : (pat3 col).length ≤ (tripleQuoted col).length := by
    rw [length_pat3, length_tripleQuoted]
    omega
  have h11 : ¬ OccursIn (pat1 col)
      (replaceList (pat1 col) (tripleQuoted col) code) :=
    no_occursIn_replaceList (pat1 col) (pat1 col) (tripleQuoted col)
      (pat1_ne_nil col) (pat1_ne_nil col)
      (not_occursIn_pat1_tripleQuoted col hq)
      (pat1_front_piece_not_tq_tail col hq)
      (pat1_rear_piece_not_tq_head col hq) hL1
      code.length code (Nat.le_refl _) (fun s2 _ hp2 => hp2)
  have h12 : ¬ OccursIn (pat1 col)
      (replaceList (pat2 col) (tripleQuoted col)
        (replaceList (pat1 col) (tripleQuoted col) code)) :=
    no_occursIn_replaceList (pat1 col) (pat2 col) (tripleQuoted col)
      (pat1_ne_nil col) (pat2_ne_nil col)
      (not_occursIn_pat1_tripleQuoted col hq)
      (pat1_front_piece_not_tq_tail col hq)
      (pat1_rear_piece_not_tq_head col hq) hL1
      _ _ (Nat.le_refl _)
      (fun s2 hs2 hp2 =>
        absurd (occursIn_of_sufOf_occursIn (occursIn_of_preOf hp2) hs2) h11)
  have h22 : ¬ OccursIn (pat2 col)
      (replaceList (pat2 col) (tripleQuoted col)
        (replaceList (pat1 col) (tripleQuoted col) code)) :=
    no_occursIn_replaceList (pat2 col) (pat2 col) (tripleQuoted col)
      (pat2_ne_nil col) (pat2_ne_nil col)
      (not_occursIn_pat2_tripleQuoted col hdq)
      (pat2_front_piece_not_tq_tail col hdq)
      (pat2_rear_piece_not_tq_head col hq) hL2
      _ _ (Nat.le_refl _) (fun s2 _ hp2 => hp2)
  have h13 : ¬ OccursIn (pat1 col) (fixRuleCode col code) :=
    no_occursIn_replaceList (pat1 col) (pat3 col) (tripleQuoted col)
      (pat1_ne_nil col) (pat3_ne_nil col)
      (not_occursIn_pat1_tripleQuoted col hq)
      (pat1_front_piece_not_tq_tail col hq)
      (pat1_rear_piece_not_tq_head col hq) hL1
      _ _ (Nat.le_refl _)
      (fun s2 hs2 hp2 =>
        absurd (occursIn_of_sufOf_occursIn (occursIn_of_preOf hp2) hs2) h12)
  have h23 : ¬ OccursIn (pat2 col) (fixRuleCode col code) :=
    no_occursIn_replaceList (pat2 col) (pat3 col) (tripleQuoted col)
      (pat2_ne_nil col) (pat3_ne_nil col)
      (not_occursIn_pat2_tripleQuoted col hdq)
      (pat2_front_piece_not_tq_tail col hdq)
      (pat2_rear_piece_not_tq_head col hq) hL2
      _ _ (Nat.le_refl _)
      (fun s2 hs2 hp2 =>
        absurd (occursIn_of_sufOf_occursIn (occursIn_of_preOf hp2) hs2) h22)
  have h33 : ¬ OccursIn (pat3 col) (fixRuleCode col code) :=
    no_occursIn_replaceList (pat3 col) (pat3 col) (tripleQuoted col)
      (pat3_ne_nil col) (pat3_ne_nil col)
      (not_occursIn_pat3_tripleQuoted col hq)
      (pat3_front_piece_not_tq_tail col hq)
      (pat3_rear_piece_not_tq_head col hq) hL3
      _ _ (Nat.le_refl _) (fun s2 _ hp2 => hp2)
  exact ⟨h13, h23, h33⟩

lemma fixRuleCode_idem (col code : List Char) (hq : singleQuote ∉ col)
    (hdq : doubleQuote ∉ col) :
    fixRuleCode col (fixRuleCode col code) = fixRuleCode col code := by
  obtain ⟨hn1, hn2, hn3⟩ := fixRuleCode_no_occursIn col code hq hdq
  show replaceList (pat3 col) (tripleQuoted col)
      (replaceList (pat2 col) (tripleQuoted col)
        (replaceList (pat1 col) (tripleQuoted col) (fixRuleCode col code))) =
    fixRuleCode col code
  rw [replaceList_eq_self_of_not_occursIn _ _ _ hn1]
  rw [replaceList_eq_self_of_not_occursIn _ _ _ hn2]
  exact replaceList_eq_self_of_not_occursIn _ _ _ hn3

/-- C10: the column-quote normalisation is idempotent: for a column name
containing no quote character, applying the three replacements (single
quoted, double quoted and bare column references each rewritten to the
triple-quoted form) a second time gives the same string, both on each rule's
`python_code` and on the whole configuration. -/
theorem fix_column_quotes_idempotent :
    (∀ col code : List Char, singleQuote ∉ col → doubleQuote ∉ col →
      fixRuleCode col (fixRuleCode col code) = fixRuleCode col code) ∧
    (∀ cfg : List RuleConfig,
      (∀ r ∈ cfg, singleQuote ∉ r.column_name ∧ doubleQuote ∉ r.column_name) →
      fix_column_quotes (fix_column_quotes cfg) = fix_column_quotes cfg) := by
  refine ⟨fun col code hq hdq => fixRuleCode_idem col code hq hdq,
    fun cfg => ?_⟩
  induction cfg with
  | nil => intro _; rfl
  | cons r rs ih =>
    intro hca
    have hr := hca r (List.mem_cons_self r rs)
    have hrest := ih (fun x hx => hca x (List.mem_cons_of_mem r hx))
    have hhead := fixRuleCode_idem r.column_name r.python_code hr.1 hr.2
    simp only [fix_column_quotes] at hrest
    simp only [fix_column_quotes, List.map_cons]
    rw [hrest]
    congr 1
    exact congrArg (RuleConfig.mk r.column_name) hhead

/-- C10 witness: a concrete quote-free column name and code string. -/
theorem fix_column_quotes_idempotent_witness :
    (singleQuote ∉ ("age".data) ∧ doubleQuote ∉ ("age".data)) ∧
    fixRuleCode ("age".data)
        (fixRuleCode ("age".data) ("df[age] > 18".data)) =
      fixRuleCode ("age".data) ("df[age] > 18".data) :=
  ⟨⟨by decide, by decide⟩,
    fix_column_quotes_idempotent.1 ("age".data) ("df[age] > 18".data)
      (by decide) (by decide)⟩
